import Mathlib

/-!
A verification development for the MemoDB in-memory key-value server
(`main.c`, `tree.c`).  C strings are modelled as `List Char`; the global
pointer-linked tree is modelled by the single west-linked chain of nodes
that the source actually builds: `create_node` links every new node as
`node->west = parent->west; parent->west = node`, so the whole node set is
one chain starting at the static root, and "children of node at chain
position p" is exactly the suffix of the chain after position p.
Machine-level aspects that no claim depends on (the `north` parent
back-pointer, the leaf `west` back-pointer, `size` fields that always equal
the value length, and `malloc` failure except for the one update-path
allocation that claim-relevant behaviour hangs on) are not represented;
every other observable of the tree and protocol layer is.
-/

abbrev Chars := List Char

/-- A `struct s_leaf`: fixed 128-byte key buffer (modelled as the stored,
already-truncated key) and a heap-allocated value pointer, which may be
NULL (`none`) after a failed update allocation (`db_set` frees the old
value before reallocating). -/
structure LeafRec where
  key : Chars
  value : Option Chars
  deriving DecidableEq, Repr

/-- A `struct s_node`: its 256-byte `path` segment buffer and the chain of
leaves hanging off its `east` pointer. -/
structure NodeRec where
  path : Chars
  leaves : List LeafRec
  deriving DecidableEq, Repr

/-- The whole tree: the single west-linked chain, position 0 being the
static root node (initialised with path "root" in `main`). Scans for a
path segment start at `west` of the current node, i.e. at position
`p + 1` of the chain, and run to the end of the chain. -/
abbrev DbState := List NodeRec

/-- The tree as initialised in `main`: just the root, no children, no
leaves. -/
def initState : DbState := [⟨"root".toList, []⟩]

/-- The sibling scan of `ensure_node_path` / `find_node_linear`: walk a
chain suffix via `west` links and return the offset of the first node
whose `path` equals the segment (`strcmp(child->path, token) == 0`). -/
def findFrom (t : Chars) : DbState → Option Nat
  | [] => none
  | n :: rest => if n.path = t then some 0 else (findFrom t rest).map (· + 1)

/-- Insertion of a freshly `create_node`d node: `node->west = parent->west;
parent->west = node` places it directly after the parent in the chain. -/
def insertAt : DbState → Nat → NodeRec → DbState
  | l, 0, x => x :: l
  | [], _ + 1, x => [x]
  | n :: rest, i + 1, x => n :: insertAt rest i x

/-- Replace the leaf chain of the node at a chain position. -/
def setLeaves : DbState → Nat → List LeafRec → DbState
  | [], _, _ => []
  | n :: rest, 0, ls => { n with leaves := ls } :: rest
  | n :: rest, i + 1, ls => n :: setLeaves rest i ls

/-- The leaf chain (`east` list) of the node at a chain position. -/
def leavesAt (c : DbState) (i : Nat) : List LeafRec :=
  match c.get? i with
  | some n => n.leaves
  | none => []

/-- `strtok_r(path, "/", ...)`: the maximal nonempty runs of characters
between slashes, accumulated left to right (the explicit leading-slash
skip in the source is subsumed: `strtok` skips empty tokens anyway). -/
def splitSegsAux : Chars → Chars → List Chars
  | [], acc => if acc = [] then [] else [acc.reverse]
  | ch :: rest, acc =>
    if ch = '/' then
      if acc = [] then splitSegsAux rest []
      else acc.reverse :: splitSegsAux rest []
    else splitSegsAux rest (ch :: acc)

/-- The segments of a path string, in order. -/
def segsOf (p : Chars) : List Chars := splitSegsAux p []

/-- The read-only walk of `find_node_linear`, relative to a current chain
position (`0` = root): for each segment, scan the chain suffix after the
current position; a missing segment yields `NULL` (`reterr(ENOENT)`). -/
def resolveFrom (c : DbState) : Nat → List Chars → Option Nat
  | p, [] => some p
  | p, t :: rest =>
    match findFrom t (c.drop (p + 1)) with
    | none => none
    | some j => resolveFrom c (p + 1 + j) rest

/-- The walk of `ensure_node_path`: like `resolveFrom`, but a missing
segment makes `create_node` insert a fresh node (path truncated to 255
bytes by `snprintf` into `path[256]`, empty leaf chain) right after the
current node, and the walk continues from it. -/
def ensureFrom : DbState → Nat → List Chars → DbState × Nat
  | c, p, [] => (c, p)
  | c, p, t :: rest =>
    match findFrom t (c.drop (p + 1)) with
    | some j => ensureFrom c (p + 1 + j) rest
    | none => ensureFrom (insertAt c (p + 1) ⟨t.take 255, []⟩) (p + 1) rest

/-- `find_node_linear` from `tree.c`. -/
def find_node_linear (c : DbState) (f : Chars) : Option Nat :=
  resolveFrom c 0 (segsOf f)

/-- `ensure_node_path` from `main.c`. -/
def ensure_node_path (c : DbState) (f : Chars) : DbState × Nat :=
  ensureFrom c 0 (segsOf f)

/-- `find_leaf_linear` from `tree.c`: resolve the path read-only, then
linear-scan the node's leaf chain for the first key match. -/
def find_leaf_linear (c : DbState) (f k : Chars) : Option LeafRec :=
  match find_node_linear c f with
  | none => none
  | some q => (leavesAt c q).find? (fun l => l.key = k)

/-- `db_get` from `main.c` (via `lookup_linear`): the leaf's value pointer,
which is NULL both when the leaf is absent and when a failed update left
the leaf with no value — both read back as "not found". -/
def db_get (c : DbState) (f k : Chars) : Option Chars :=
  match find_leaf_linear c f k with
  | none => none
  | some l => l.value

/-- The update arm of `db_set` fused with the `find_leaf_linear` scan it
acts on: replace the value of the first leaf whose key matches (the source
frees the old buffer, then allocates the new one; `v = none` models that
allocation failing, which leaves the leaf with a NULL value).  `none`
means no leaf matched. -/
def setLeafVal : List LeafRec → Chars → Option Chars → Option (List LeafRec)
  | [], _, _ => none
  | l :: rest, k, v =>
    if l.key = k then some ({ l with value := v } :: rest)
    else (setLeafVal rest k v).map (l :: ·)

/-- `db_set` from `main.c`.  `allocOk` is the outcome of the single
`malloc` in the update arm (all other allocations are assumed to succeed;
no claim depends on them).  Mirrors the source exactly: `ensure_node_path`
first (returning node position `p`), then `find_leaf_linear` — which
re-resolves the path from the root (position `q`) — and either updates
that leaf in place or appends a new leaf (key truncated to 127 bytes by
`snprintf` into `key[128]`, value copied exactly) at the tail of node
`p`'s chain. -/
def db_set (c : DbState) (f k v : Chars) (allocOk : Bool) : DbState × Bool :=
  let ep := ensure_node_path c f
  match find_node_linear ep.1 f with
  | some q =>
    match setLeafVal (leavesAt ep.1 q) k (if allocOk then some v else none) with
    | some ls => (setLeaves ep.1 q ls, allocOk)
    | none => (setLeaves ep.1 ep.2 (leavesAt ep.1 ep.2 ++ [⟨k.take 127, some v⟩]), true)
  | none => (setLeaves ep.1 ep.2 (leavesAt ep.1 ep.2 ++ [⟨k.take 127, some v⟩]), true)

/-- The predecessor-tracking splice of `db_del`: remove the first leaf
whose key matches; `none` if no leaf matches. -/
def delLeaf : List LeafRec → Chars → Option (List LeafRec)
  | [], _ => none
  | l :: rest, k =>
    if l.key = k then some rest else (delLeaf rest k).map (l :: ·)

/-- `db_del` from `main.c`: `find_node_linear` (no creation), then splice
the first matching leaf out of the node's chain; `-1` (here `false`) when
the path or the key is missing, in which case nothing is touched. -/
def db_del (c : DbState) (f k : Chars) : DbState × Bool :=
  match find_node_linear c f with
  | none => (c, false)
  | some q =>
    match delLeaf (leavesAt c q) k with
    | none => (c, false)
    | some ls => (setLeaves c q ls, true)

/-! ## Command parser (`parse_command`, `main.c`) and dispatcher -/

/-- `strtok_r`'s skipping of leading delimiters (and the explicit
`while (*value_start == ' ') value_start++;` in the SET arm). -/
def dropSpaces (l : Chars) : Chars := l.dropWhile (fun ch => ch = ' ')

/-- One `strtok_r(NULL, " ", &saveptr)` step: skip leading spaces; no
token if nothing is left; otherwise the token is the run up to the next
space and the rest is everything from that space on (the single delimiter
that `strtok` overwrites is consumed by the next `dropSpaces`). -/
def nextTok (l : Chars) : Option (Chars × Chars) :=
  match dropSpaces l with
  | [] => none
  | ch :: rest =>
    some ((ch :: rest).takeWhile (fun c0 => c0 ≠ ' '),
          (ch :: rest).dropWhile (fun c0 => c0 ≠ ' '))

/-- `parsed_command_t`: fixed buffers `command[16]`, `file[256]`,
`key[128]`, `value[1024]`, so the stored fields are the `strncpy`/
`strncpy`-style truncations to 15/255/127/1023 bytes. -/
structure ParsedCommand where
  command : Chars
  file : Chars
  key : Chars
  value : Chars
  deriving DecidableEq, Repr

/-- The shared FILE/KEY extraction of the three verb arms: two more
tokens, truncated into `file[256]` and `key[128]`; the rest of the line
after the KEY token is returned for the SET arm / arity check. -/
def parseFileKey (r1 : Chars) : Option (Chars × Chars × Chars) :=
  match nextTok r1 with
  | none => none
  | some (ftok, r2) =>
    match nextTok r2 with
    | none => none
    | some (ktok, r3) => some (ftok.take 255, ktok.take 127, r3)

/-- `parse_command` from `main.c`.  First token, truncated to 15 bytes and
uppercased (`toupper` per byte), selects the verb; GET/DEL require exactly
FILE and KEY (a further token is an error); SET takes the rest of the line
after KEY, with leading spaces skipped, as the value, requires it nonempty
and truncates it to 1023 bytes.  Anything else is a parse error
(`false`). -/
def parse_command (line : Chars) : Option ParsedCommand :=
  match nextTok line with
  | none => none
  | some (tok0, r1) =>
    if (tok0.take 15).map Char.toUpper = "GET".toList then
      match parseFileKey r1 with
      | none => none
      | some (fl, ky, r3) =>
        match nextTok r3 with
        | some _ => none
        | none => some ⟨(tok0.take 15).map Char.toUpper, fl, ky, []⟩
    else if (tok0.take 15).map Char.toUpper = "SET".toList then
      match parseFileKey r1 with
      | none => none
      | some (fl, ky, r3) =>
        if dropSpaces r3 = [] then none
        else some ⟨(tok0.take 15).map Char.toUpper, fl, ky, (dropSpaces r3).take 1023⟩
    else if (tok0.take 15).map Char.toUpper = "DEL".toList then
      match parseFileKey r1 with
      | none => none
      | some (fl, ky, r3) =>
        match nextTok r3 with
        | some _ => none
        | none => some ⟨(tok0.take 15).map Char.toUpper, fl, ky, []⟩
    else none

/-- An ASCII single quote, written by code point to keep string literals
quote-free. -/
def squo : Char := Char.ofNat 39

/-- The trailing prompt sentinel `"\n> "`. -/
def sentinel : Chars := "\n> ".toList

/-- A reply ends with the prompt sentinel. -/
def endsWithSentinel (r : Chars) : Prop :=
  3 ≤ r.length ∧ r.drop (r.length - 3) = sentinel

instance (r : Chars) : Decidable (endsWithSentinel r) := by
  unfold endsWithSentinel; infer_instance

/-- The welcome banner sent on accept (`handle_new_connection`). -/
def welcomeMsg : Chars :=
  "Welcome to MemoDB! Type ".toList ++ [squo] ++ "help".toList ++ [squo] ++
    " for commands.".toList ++ sentinel

/-- The `help` reply (a string literal in the source, no truncation). -/
def helpMsg : Chars :=
  ("Available commands:\n  help        - Show this help message\n" ++
   "  info        - Show server information\n" ++
   "  quit        - Disconnect from server\n" ++
   "  GET <file> <key> - Retrieve a value from a file\n" ++
   "  SET <file> <key> <value> - Set a value in a file\n" ++
   "  DEL <file> <key> - Delete a key-value pair from a file").toList ++ sentinel

/-- The formatted fields of the `info` reply (`%d` fields rendered to
text; `HOST` is the literal `"127.0.0.1"`). -/
structure ServerInfo where
  portStr : Chars
  countStr : Chars
  capStr : Chars
  ipStr : Chars
  clientPortStr : Chars

/-- The `info` reply body before the sentinel (`snprintf` into
`info_msg[512]`). -/
def infoBody (si : ServerInfo) : Chars :=
  "Server Information:\n  Host: 127.0.0.1:".toList ++ si.portStr ++
    "\n  Connected clients: ".toList ++ si.countStr ++ "/".toList ++ si.capStr ++
    "\n  Your IP: ".toList ++ si.ipStr ++ ":".toList ++ si.clientPortStr

/-- The `info` reply: `snprintf(info_msg, 512, ...)` truncates to 511
bytes. -/
def infoMsg (si : ServerInfo) : Chars := (infoBody si ++ sentinel).take 511

/-- The goodbye reply of `quit`/`exit`: note that unlike every other
reply it does NOT carry the prompt sentinel. -/
def goodbyeMsg : Chars := "Goodbye!\n".toList

/-- Body of the malformed-command echo before the sentinel. -/
def malformedBody (line : Chars) : Chars :=
  "Error: Malformed command or invalid arguments for ".toList ++ [squo] ++ line ++
    [squo] ++ ". Type ".toList ++ [squo] ++ "help".toList ++ [squo] ++ " for syntax.".toList

/-- The malformed-command reply: `snprintf(response, BUFFER_SIZE, ...)`
truncates to 4095 bytes. -/
def malformedReply (line : Chars) : Chars := (malformedBody line ++ sentinel).take 4095

/-- Body of the `OK: <value>` reply of a successful GET. -/
def getOkBody (v : Chars) : Chars := "OK: ".toList ++ v

/-- `OK: <value>` reply of a successful GET (`snprintf`, 4095-byte cap). -/
def getOkReply (v : Chars) : Chars := (getOkBody v ++ sentinel).take 4095

/-- Body of the GET miss reply before the sentinel. -/
def getErrBody (k f : Chars) : Chars :=
  "ERR: Key ".toList ++ [squo] ++ k ++ [squo] ++ " not found in file ".toList ++
    [squo] ++ f ++ [squo] ++ ".".toList

/-- The GET miss reply (`snprintf`, 4095-byte cap). -/
def getErrReply (k f : Chars) : Chars := (getErrBody k f ++ sentinel).take 4095

/-- SET / DEL success and failure replies (string literals). -/
def setOkReply : Chars := "OK".toList ++ sentinel
def setErrReply : Chars := "ERR: Failed to set value. Check server logs.".toList ++ sentinel
def delOkReply : Chars := "OK".toList ++ sentinel
def delErrReply : Chars := "ERR: Failed to delete key. Check server logs.".toList ++ sentinel

/-- Body of the unreachable unknown-verb fallback reply. -/
def unknownBody (line : Chars) : Chars :=
  "Unknown command: ".toList ++ [squo] ++ line ++ [squo] ++ ". Type ".toList ++
    [squo] ++ "help".toList ++ [squo] ++ " for available commands.".toList

/-- The unknown-verb fallback reply (`snprintf`, 4095-byte cap). -/
def unknownReply (line : Chars) : Chars := (unknownBody line ++ sentinel).take 4095

/-- `process_client_command` from `main.c`: returns the tree after the
command together with the single reply handed to `send_to_client`.
Built-in session commands are matched on the exact line first; then the
line is parsed and dispatched to `db_get`/`db_set`/`db_del` (database
allocations succeeding).  The connection-state transition of `quit`/
`exit` has no tree effect and is not represented. -/
def process_client_command (si : ServerInfo) (c : DbState) (line : Chars) :
    DbState × Chars :=
  if line = "quit".toList ∨ line = "exit".toList then (c, goodbyeMsg)
  else if line = "help".toList then (c, helpMsg)
  else if line = "info".toList then (c, infoMsg si)
  else
    match parse_command line with
    | none => (c, malformedReply line)
    | some pc =>
      if pc.command = "GET".toList then
        match db_get c pc.file pc.key with
        | some v => (c, getOkReply v)
        | none => (c, getErrReply pc.key pc.file)
      else if pc.command = "SET".toList then
        ((db_set c pc.file pc.key pc.value true).1,
          if (db_set c pc.file pc.key pc.value true).2 then setOkReply else setErrReply)
      else if pc.command = "DEL".toList then
        ((db_del c pc.file pc.key).1,
          if (db_del c pc.file pc.key).2 then delOkReply else delErrReply)
      else (c, unknownReply line)

/-! ## Basic lemmas about the chain primitives -/

theorem take_congr_of_le {α : Type} {l₁ l₂ : List α} {m k : Nat}
    (h : l₁.take m = l₂.take m) (hk : k ≤ m) : l₁.take k = l₂.take k := by
  have h2 := congrArg (List.take k) h
  simpa [List.take_take, Nat.min_eq_left hk] using h2

theorem take_drop_comm {α : Type} :
    ∀ (l : List α) (a b : Nat), (l.drop a).take b = (l.take (a + b)).drop a := by
  intro l
  induction l with
  | nil => intro a b; simp
  | cons x xs ih =>
    intro a b
    cases a with
    | zero => simp
    | succ a =>
      have : a + 1 + b = (a + b) + 1 := by omega
      simp [this, ih a b]

theorem take_one_eq_cons {α : Type} {l : List α} {x : α} (h : l.take 1 = [x]) :
    ∃ tl, l = x :: tl := by
  cases l with
  | nil => simp at h
  | cons y tl => simp at h; exact ⟨tl, by rw [h]⟩

theorem findFrom_lt_length {t : Chars} :
    ∀ {l : DbState} {j : Nat}, findFrom t l = some j → j < l.length := by
  intro l
  induction l with
  | nil => intro j h; simp [findFrom] at h
  | cons n rest ih =>
    intro j h
    by_cases hp : n.path = t
    · simp [findFrom, hp] at h
      simp [List.length_cons]
      omega
    · simp [findFrom, hp] at h
      obtain ⟨j', hj', rfl⟩ := h
      have := ih hj'
      simp [List.length_cons]
      omega

theorem findFrom_stable {t : Chars} :
    ∀ {l l₂ : DbState} {m j : Nat},
      l.take m = l₂.take m → findFrom t l = some j → j < m →
      findFrom t l₂ = some j := by
  intro l
  induction l with
  | nil => intro l₂ m j _ h _; simp [findFrom] at h
  | cons n rest ih =>
    intro l₂ m j htake h hj
    cases m with
    | zero => omega
    | succ m =>
      cases l₂ with
      | nil => simp at htake
      | cons n₂ rest₂ =>
        simp [List.take] at htake
        obtain ⟨rfl, htk⟩ := htake
        by_cases hp : n.path = t
        · simp [findFrom, hp] at h ⊢
          omega
        · simp [findFrom, hp] at h ⊢
          obtain ⟨j', hj', rfl⟩ := h
          exact ⟨j', ih htk hj' (by omega), rfl⟩

theorem insertAt_length :
    ∀ (l : DbState) (i : Nat) (x : NodeRec), (insertAt l i x).length = l.length + 1 := by
  intro l
  induction l with
  | nil => intro i x; cases i <;> simp [insertAt]
  | cons n rest ih =>
    intro i x
    cases i with
    | zero => simp [insertAt]
    | succ i => simp [insertAt, ih]

theorem insertAt_take :
    ∀ (l : DbState) (i : Nat) (x : NodeRec), i ≤ l.length →
      (insertAt l i x).take i = l.take i := by
  intro l
  induction l with
  | nil =>
    intro i x hi
    simp at hi
    subst hi
    simp [insertAt]
  | cons n rest ih =>
    intro i x hi
    cases i with
    | zero => simp [insertAt]
    | succ i =>
      simp at hi
      simp [insertAt]
      exact ih i x (by omega)

theorem insertAt_drop :
    ∀ (l : DbState) (i : Nat) (x : NodeRec), i ≤ l.length →
      (insertAt l i x).drop i = x :: l.drop i := by
  intro l
  induction l with
  | nil =>
    intro i x hi
    simp at hi
    subst hi
    simp [insertAt]
  | cons n rest ih =>
    intro i x hi
    cases i with
    | zero => simp [insertAt]
    | succ i =>
      simp at hi
      simp [insertAt, List.drop]
      exact ih i x (by omega)

theorem insertAt_sublist :
    ∀ (l : DbState) (i : Nat) (x : NodeRec), l.Sublist (insertAt l i x) := by
  intro l
  induction l with
  | nil => intro i x; cases i <;> simp [insertAt]
  | cons n rest ih =>
    intro i x
    cases i with
    | zero => simp [insertAt]
    | succ i => simpa [insertAt] using ih i x

theorem insertAt_mem {y : NodeRec} :
    ∀ {l : DbState} {i : Nat} {x : NodeRec}, y ∈ insertAt l i x → y ∈ l ∨ y = x := by
  intro l
  induction l with
  | nil => intro i x h; cases i <;> simp [insertAt] at h <;> simp [h]
  | cons n rest ih =>
    intro i x h
    cases i with
    | zero =>
      simp [insertAt] at h
      rcases h with h | h | h
      · right; exact h
      · left; simp [h]
      · left; simp [h]
    | succ i =>
      simp [insertAt] at h
      rcases h with h | h
      · simp [h]
      · rcases ih h with h2 | h2 <;> simp [h2]

theorem setLeaves_length :
    ∀ (c : DbState) (q : Nat) (ls : List LeafRec), (setLeaves c q ls).length = c.length := by
  intro c
  induction c with
  | nil => intro q ls; simp [setLeaves]
  | cons n rest ih =>
    intro q ls
    cases q with
    | zero => simp [setLeaves]
    | succ q => simp [setLeaves, ih]

theorem setLeaves_map_path :
    ∀ (c : DbState) (q : Nat) (ls : List LeafRec),
      (setLeaves c q ls).map NodeRec.path = c.map NodeRec.path := by
  intro c
  induction c with
  | nil => intro q ls; simp [setLeaves]
  | cons n rest ih =>
    intro q ls
    cases q with
    | zero => simp [setLeaves]
    | succ q => simp [setLeaves, ih]

theorem leavesAt_setLeaves_same :
    ∀ (c : DbState) (q : Nat) (ls : List LeafRec), q < c.length →
      leavesAt (setLeaves c q ls) q = ls := by
  intro c
  induction c with
  | nil => intro q ls h; simp at h
  | cons n rest ih =>
    intro q ls h
    cases q with
    | zero => simp [setLeaves, leavesAt]
    | succ q =>
      simp at h
      simp [setLeaves, leavesAt] at *
      exact ih q ls (by omega)

theorem setLeaves_mem {n' : NodeRec} :
    ∀ {c : DbState} {q : Nat} {ls : List LeafRec},
      n' ∈ setLeaves c q ls → n' ∈ c ∨ n'.leaves = ls := by
  intro c
  induction c with
  | nil => intro q ls h; simp [setLeaves] at h
  | cons n rest ih =>
    intro q ls h
    cases q with
    | zero =>
      simp [setLeaves] at h
      rcases h with h | h
      · right; simp [h]
      · left; simp [h]
    | succ q =>
      simp [setLeaves] at h
      rcases h with h | h
      · left; simp [h]
      · rcases ih h with h2 | h2
        · left; simp [h2]
        · right; exact h2

theorem splitSegsAux_length_le {t : Chars} :
    ∀ (l acc : Chars), t ∈ splitSegsAux l acc → t.length ≤ l.length + acc.length := by
  intro l
  induction l with
  | nil =>
    intro acc h
    by_cases ha : acc = [] <;> simp [splitSegsAux, ha] at h
    simp [h]
  | cons ch rest ih =>
    intro acc h
    by_cases hc : ch = '/'
    · by_cases ha : acc = []
      · simp [splitSegsAux, hc, ha] at h
        have := ih [] h
        simp at this
        simp; omega
      · simp [splitSegsAux, hc, ha] at h
        rcases h with h | h
        · subst h
          simp only [List.length_reverse, List.length_cons]
          omega
        · have := ih [] h
          simp at this
          simp; omega
    · simp [splitSegsAux, hc] at h
      have := ih (ch :: acc) h
      simp at this
      simp; omega

theorem segsOf_length_le {t f : Chars} (h : t ∈ segsOf f) : t.length ≤ f.length := by
  have := splitSegsAux_length_le f [] h
  simpa using this

/-! ## The core correspondence between `ensure_node_path` and
`find_node_linear` -/

/-- After `ensure_node_path`'s walk over a list of segments (each short
enough for `snprintf` not to truncate the stored `path`), re-resolving the
same segments read-only — as `find_leaf_linear` inside `db_set`, and later
`db_get`, do — reaches exactly the node the walk ended on.  The walk also
never modifies the chain up to and including the current position and
never shortens the chain. -/
theorem ensureFrom_spec :
    ∀ (segs : List Chars) (c : DbState) (p : Nat),
      (∀ t ∈ segs, t.length ≤ 255) → p < c.length →
      p ≤ (ensureFrom c p segs).2 ∧
      (ensureFrom c p segs).2 < (ensureFrom c p segs).1.length ∧
      c.length ≤ (ensureFrom c p segs).1.length ∧
      (ensureFrom c p segs).1.take (p + 1) = c.take (p + 1) ∧
      resolveFrom (ensureFrom c p segs).1 p segs = some (ensureFrom c p segs).2 := by
  intro segs
  induction segs with
  | nil =>
    intro c p _ hp
    refine ⟨le_refl _, ?_, le_refl _, rfl, rfl⟩
    simpa [ensureFrom] using hp
  | cons t rest ih =>
    intro c p hb hp
    rcases hfind : findFrom t (c.drop (p + 1)) with _ | j
    · -- segment missing: `create_node` inserts right after the parent
      have htlen : t.take 255 = t := List.take_of_length_le (hb t (by simp))
      have hlen2 : (insertAt c (p + 1) ⟨t.take 255, []⟩).length = c.length + 1 :=
        insertAt_length c (p + 1) ⟨t.take 255, []⟩
      have hple : p + 1 ≤ c.length := hp
      have hp2 : p + 1 < (insertAt c (p + 1) ⟨t.take 255, []⟩).length := by omega
      have IH := ih (insertAt c (p + 1) ⟨t.take 255, []⟩) (p + 1)
        (fun u hu => hb u (by simp [hu])) hp2
      obtain ⟨ih1, ih2, ih3, ih4, ih5⟩ := IH
      have heq : ensureFrom c p (t :: rest) =
          ensureFrom (insertAt c (p + 1) ⟨t.take 255, []⟩) (p + 1) rest := by
        simp [ensureFrom, hfind]
      rw [heq]
      refine ⟨by omega, ih2, by omega, ?_, ?_⟩
      · have h1 := take_congr_of_le ih4 (show p + 1 ≤ p + 1 + 1 by omega)
        rw [h1, insertAt_take c (p + 1) ⟨t.take 255, []⟩ hple]
      · have hd : (insertAt c (p + 1) ⟨t.take 255, []⟩).drop (p + 1) =
            ⟨t.take 255, []⟩ :: c.drop (p + 1) :=
          insertAt_drop c (p + 1) ⟨t.take 255, []⟩ hple
        have h2 : ((ensureFrom (insertAt c (p + 1) ⟨t.take 255, []⟩) (p + 1) rest).1.drop
            (p + 1)).take 1 =
            ((insertAt c (p + 1) ⟨t.take 255, []⟩).drop (p + 1)).take 1 := by
          rw [take_drop_comm, take_drop_comm]
          exact congrArg (List.drop (p + 1)) ih4
        rw [hd] at h2
        simp at h2
        obtain ⟨tl, htl⟩ := take_one_eq_cons h2
        have hf0 : findFrom t
            ((ensureFrom (insertAt c (p + 1) ⟨t.take 255, []⟩) (p + 1) rest).1.drop (p + 1)) =
            some 0 := by
          rw [htl]
          simp [findFrom, htlen]
        simp [resolveFrom, hf0]
        exact ih5
    · -- segment found at offset j of the suffix scan
      have hjlt : j < (c.drop (p + 1)).length := findFrom_lt_length hfind
      have hjlt2 : p + 1 + j < c.length := by
        simp [List.length_drop] at hjlt
        omega
      have IH := ih c (p + 1 + j) (fun u hu => hb u (by simp [hu])) hjlt2
      obtain ⟨ih1, ih2, ih3, ih4, ih5⟩ := IH
      have heq : ensureFrom c p (t :: rest) = ensureFrom c (p + 1 + j) rest := by
        simp [ensureFrom, hfind]
      rw [heq]
      refine ⟨by omega, ih2, ih3, take_congr_of_le ih4 (by omega), ?_⟩
      have hagree : ((ensureFrom c (p + 1 + j) rest).1.drop (p + 1)).take (j + 1) =
          (c.drop (p + 1)).take (j + 1) := by
        rw [take_drop_comm, take_drop_comm]
        exact congrArg (List.drop (p + 1)) (take_congr_of_le ih4 (by omega))
      have hf : findFrom t ((ensureFrom c (p + 1 + j) rest).1.drop (p + 1)) = some j :=
        findFrom_stable hagree.symm hfind (by omega)
      simp [resolveFrom, hf]
      exact ih5

/-! ## Derived facts about resolution and the leaf-chain operations -/

/-- A successful read-only walk only ever moves forward in the chain and
lands on a valid position. -/
theorem resolveFrom_le_lt :
    ∀ (segs : List Chars) (c : DbState) (p q : Nat),
      p < c.length → resolveFrom c p segs = some q → p ≤ q ∧ q < c.length := by
  intro segs
  induction segs with
  | nil =>
    intro c p q hp h
    simp [resolveFrom] at h
    omega
  | cons t rest ih =>
    intro c p q hp h
    rcases hfind : findFrom t (c.drop (p + 1)) with _ | j
    · simp [resolveFrom, hfind] at h
    · simp [resolveFrom, hfind] at h
      have hjlt : j < (c.drop (p + 1)).length := findFrom_lt_length hfind
      simp [List.length_drop] at hjlt
      have := ih c (p + 1 + j) q (by omega) h
      omega

/-- When the path already resolves, `ensure_node_path` creates nothing and
returns the resolved node: the walk is pure. -/
theorem ensureFrom_of_resolve :
    ∀ (segs : List Chars) (c : DbState) (p q : Nat),
      resolveFrom c p segs = some q → ensureFrom c p segs = (c, q) := by
  intro segs
  induction segs with
  | nil =>
    intro c p q h
    simp [resolveFrom] at h
    simp [ensureFrom, h]
  | cons t rest ih =>
    intro c p q h
    rcases hfind : findFrom t (c.drop (p + 1)) with _ | j
    · simp [resolveFrom, hfind] at h
    · simp [resolveFrom, hfind] at h
      simp [ensureFrom, hfind]
      exact ih c (p + 1 + j) q h

/-- The sibling scan only looks at `path` fields. -/
theorem findFrom_congr {t : Chars} :
    ∀ {l l₂ : DbState}, l.map NodeRec.path = l₂.map NodeRec.path →
      findFrom t l = findFrom t l₂ := by
  intro l
  induction l with
  | nil =>
    intro l₂ h
    cases l₂ with
    | nil => rfl
    | cons m tl => simp at h
  | cons n rest ih =>
    intro l₂ h
    cases l₂ with
    | nil => simp at h
    | cons m tl =>
      simp at h
      obtain ⟨hpath, htail⟩ := h
      simp [findFrom, hpath, ih htail]

/-- The read-only walk only looks at `path` fields. -/
theorem resolveFrom_congr :
    ∀ (segs : List Chars) (c c₂ : DbState) (p : Nat),
      c.map NodeRec.path = c₂.map NodeRec.path →
      resolveFrom c p segs = resolveFrom c₂ p segs := by
  intro segs
  induction segs with
  | nil => intro c c₂ p _; rfl
  | cons t rest ih =>
    intro c c₂ p h
    have hdrop : (c.drop (p + 1)).map NodeRec.path = (c₂.drop (p + 1)).map NodeRec.path := by
      rw [List.map_drop, List.map_drop, h]
    have hfind := findFrom_congr (t := t) hdrop
    rcases hf : findFrom t (c.drop (p + 1)) with _ | j
    · rw [hf] at hfind
      simp [resolveFrom, hf, ← hfind]
    · rw [hf] at hfind
      simp [resolveFrom, hf, ← hfind]
      exact ih c c₂ (p + 1 + j) h

/-- Rewriting one node's leaf chain does not change path resolution. -/
theorem find_node_linear_setLeaves (c : DbState) (q : Nat) (ls : List LeafRec) (f : Chars) :
    find_node_linear (setLeaves c q ls) f = find_node_linear c f :=
  resolveFrom_congr (segsOf f) (setLeaves c q ls) c 0 (setLeaves_map_path c q ls)

/-- If the in-place update scan found no key match, neither does
`find?`. -/
theorem setLeafVal_none_find :
    ∀ (ls : List LeafRec) (k : Chars) (v : Option Chars),
      setLeafVal ls k v = none → ls.find? (fun l => l.key = k) = none := by
  intro ls
  induction ls with
  | nil => intro k v _; rfl
  | cons l rest ih =>
    intro k v h
    by_cases hk : l.key = k
    · simp [setLeafVal, hk] at h
    · simp [setLeafVal, hk] at h
      have h2 := ih k v h
      rw [List.find?_eq_none] at h2 ⊢
      intro x hx
      rcases List.mem_cons.mp hx with rfl | hx
      · simpa using hk
      · exact h2 x hx

/-- After an in-place update, the first key match carries exactly the new
value. -/
theorem setLeafVal_some_find :
    ∀ (ls : List LeafRec) (k : Chars) (v : Option Chars) (ls₂ : List LeafRec),
      setLeafVal ls k v = some ls₂ →
      ∃ l0 : LeafRec, l0.key = k ∧
        ls₂.find? (fun l => l.key = k) = some { l0 with value := v } := by
  intro ls
  induction ls with
  | nil => intro k v ls₂ h; simp [setLeafVal] at h
  | cons l rest ih =>
    intro k v ls₂ h
    by_cases hk : l.key = k
    · simp [setLeafVal, hk] at h
      refine ⟨l, hk, ?_⟩
      rw [← h]
      simp [List.find?, hk]
    · simp [setLeafVal, hk] at h
      obtain ⟨ls₂', hls₂', rfl⟩ := h
      obtain ⟨l0, hl0, hfind⟩ := ih k v ls₂' hls₂'
      exact ⟨l0, hl0, by simp [List.find?, hk, hfind]⟩

/-- The in-place update leaves the key sequence of the chain untouched. -/
theorem setLeafVal_map_key :
    ∀ (ls : List LeafRec) (k : Chars) (v : Option Chars) (ls₂ : List LeafRec),
      setLeafVal ls k v = some ls₂ →
      ls₂.map (fun l => l.key) = ls.map (fun l => l.key) := by
  intro ls
  induction ls with
  | nil => intro k v ls₂ h; simp [setLeafVal] at h
  | cons l rest ih =>
    intro k v ls₂ h
    by_cases hk : l.key = k
    · simp [setLeafVal, hk] at h
      rw [← h]
      simp [hk]
    · simp [setLeafVal, hk] at h
      obtain ⟨ls₂', hls₂', rfl⟩ := h
      simp [ih k v ls₂' hls₂']

/-- If some leaf matches the key, the in-place update succeeds. -/
theorem setLeafVal_isSome_of_find :
    ∀ (ls : List LeafRec) (k : Chars) (v : Option Chars) (l0 : LeafRec),
      ls.find? (fun l => l.key = k) = some l0 → (setLeafVal ls k v).isSome := by
  intro ls
  induction ls with
  | nil => intro k v l0 h; simp at h
  | cons l rest ih =>
    intro k v l0 h
    by_cases hk : l.key = k
    · simp [setLeafVal, hk]
    · simp [List.find?, hk] at h
      simp [setLeafVal, hk, Option.isSome_map]
      exact ih k v l0 h

/-- `db_del`'s splice succeeds whenever some leaf matches. -/
theorem delLeaf_isSome_of_find :
    ∀ (ls : List LeafRec) (k : Chars) (l0 : LeafRec),
      ls.find? (fun l => l.key = k) = some l0 → (delLeaf ls k).isSome := by
  intro ls
  induction ls with
  | nil => intro k l0 h; simp at h
  | cons l rest ih =>
    intro k l0 h
    by_cases hk : l.key = k
    · simp [delLeaf, hk]
    · simp [List.find?, hk] at h
      simp [delLeaf, hk, Option.isSome_map]
      exact ih k l0 h

/-- The splice removes exactly one leaf: the result is a sublist. -/
theorem delLeaf_sublist :
    ∀ (ls : List LeafRec) (k : Chars) (ls₂ : List LeafRec),
      delLeaf ls k = some ls₂ → ls₂.Sublist ls := by
  intro ls
  induction ls with
  | nil => intro k ls₂ h; simp [delLeaf] at h
  | cons l rest ih =>
    intro k ls₂ h
    by_cases hk : l.key = k
    · simp [delLeaf, hk] at h
      rw [← h]
      exact List.sublist_cons_self l rest
    · simp [delLeaf, hk] at h
      obtain ⟨ls₂', hls₂', rfl⟩ := h
      exact List.Sublist.cons₂ l (ih k ls₂' hls₂')

/-- A chain without the key has no match. -/
theorem find_none_of_not_mem_keys {ls : List LeafRec} {k : Chars}
    (h : k ∉ ls.map (fun l => l.key)) : ls.find? (fun l => l.key = k) = none := by
  rw [List.find?_eq_none]
  intro x hx
  simp only [decide_eq_true_eq]
  intro hkey
  exact h (by simp; exact ⟨x, hx, hkey⟩)

/-- Conversely, a missing match means the key is absent. -/
theorem not_mem_keys_of_find_none {ls : List LeafRec} {k : Chars}
    (h : ls.find? (fun l => l.key = k) = none) : k ∉ ls.map (fun l => l.key) := by
  rw [List.find?_eq_none] at h
  intro hmem
  simp at hmem
  obtain ⟨x, hx, hkey⟩ := hmem
  exact absurd (by simpa using h x hx) (by simp [hkey])

/-- With pairwise-distinct keys, splicing the matching leaf out leaves no
further match. -/
theorem delLeaf_find_none_of_nodup :
    ∀ (ls : List LeafRec) (k : Chars) (ls₂ : List LeafRec),
      (ls.map (fun l => l.key)).Nodup → delLeaf ls k = some ls₂ →
      ls₂.find? (fun l => l.key = k) = none := by
  intro ls
  induction ls with
  | nil => intro k ls₂ _ h; simp [delLeaf] at h
  | cons l rest ih =>
    intro k ls₂ hnd h
    simp at hnd
    by_cases hk : l.key = k
    · simp [delLeaf, hk] at h
      rw [← h]
      apply find_none_of_not_mem_keys
      rw [← hk]
      intro hmem
      simp at hmem
      obtain ⟨x, hx, hkey⟩ := hmem
      exact hnd.1 x hx hkey
    · simp [delLeaf, hk] at h
      obtain ⟨ls₂', hls₂', rfl⟩ := h
      rw [List.find?_eq_none]
      intro x hx
      rcases List.mem_cons.mp hx with rfl | hx
      · simpa using hk
      · have := ih k ls₂' hnd.2 hls₂'
        rw [List.find?_eq_none] at this
        exact this x hx

/-- Scanning past an unmatching chain. -/
theorem find?_append_none {p : LeafRec → Bool} {l₁ l₂ : List LeafRec}
    (h : l₁.find? p = none) : (l₁ ++ l₂).find? p = l₂.find? p := by
  induction l₁ with
  | nil => simp
  | cons x xs ih =>
    rcases hp : p x with _ | _
    · simp only [List.cons_append, List.find?, hp] at h ⊢
      exact ih h
    · simp only [List.find?, hp] at h
      exact absurd h (by simp)

/-- The data-model invariant: within one node, the keys of its leaves are
pairwise distinct. -/
def KeysUnique (c : DbState) : Prop :=
  ∀ n ∈ c, (n.leaves.map (fun l => l.key)).Nodup

theorem KeysUnique_insertAt {c : DbState} {i : Nat} {t : Chars}
    (hu : KeysUnique c) : KeysUnique (insertAt c i ⟨t, []⟩) := by
  intro n hn
  rcases insertAt_mem hn with h | h
  · exact hu n h
  · simp [h]

theorem KeysUnique_ensureFrom :
    ∀ (segs : List Chars) (c : DbState) (p : Nat),
      KeysUnique c → KeysUnique (ensureFrom c p segs).1 := by
  intro segs
  induction segs with
  | nil => intro c p hu; simpa [ensureFrom] using hu
  | cons t rest ih =>
    intro c p hu
    rcases hfind : findFrom t (c.drop (p + 1)) with _ | j
    · simp only [ensureFrom, hfind]
      exact ih _ _ (KeysUnique_insertAt hu)
    · simp only [ensureFrom, hfind]
      exact ih _ _ hu

theorem KeysUnique_setLeaves {c : DbState} {q : Nat} {ls : List LeafRec}
    (hu : KeysUnique c) (hls : (ls.map (fun l => l.key)).Nodup) :
    KeysUnique (setLeaves c q ls) := by
  intro n hn
  rcases setLeaves_mem hn with h | h
  · exact hu n h
  · rw [h]; exact hls

/-- Each node's leaf keys are duplicate-free under the invariant. -/
theorem leavesAt_nodup {c : DbState} (hu : KeysUnique c) (q : Nat) :
    ((leavesAt c q).map (fun l => l.key)).Nodup := by
  unfold leavesAt
  cases hq : c.get? q with
  | none => simp
  | some n => exact hu n (List.get?_mem hq)

/-- `db_set` with its `let` zeta-reduced, for rewriting. -/
theorem db_set_eq (c : DbState) (f k v : Chars) (allocOk : Bool) :
    db_set c f k v allocOk =
      match find_node_linear (ensure_node_path c f).1 f with
      | some q =>
        match setLeafVal (leavesAt (ensure_node_path c f).1 q) k
            (if allocOk then some v else none) with
        | some ls => (setLeaves (ensure_node_path c f).1 q ls, allocOk)
        | none => (setLeaves (ensure_node_path c f).1 (ensure_node_path c f).2
            (leavesAt (ensure_node_path c f).1 (ensure_node_path c f).2 ++
              [⟨k.take 127, some v⟩]), true)
      | none => (setLeaves (ensure_node_path c f).1 (ensure_node_path c f).2
          (leavesAt (ensure_node_path c f).1 (ensure_node_path c f).2 ++
            [⟨k.take 127, some v⟩]), true) := rfl

/-- What a successful `db_set` leaves at the node it targets: the path
re-resolves to a node `p` whose leaf chain now has a first key match
carrying exactly the new value; and under the key-uniqueness invariant the
chain's keys stay duplicate-free. -/
theorem db_set_post (c : DbState) (f k v : Chars)
    (hc : 0 < c.length) (hf : ∀ t ∈ segsOf f, t.length ≤ 255) (hk : k.length ≤ 127) :
    ∃ p, find_node_linear (db_set c f k v true).1 f = some p ∧
      p < (db_set c f k v true).1.length ∧
      (∃ l0 : LeafRec, l0.key = k ∧
        (leavesAt (db_set c f k v true).1 p).find? (fun l => l.key = k) =
          some { l0 with value := some v }) ∧
      (KeysUnique c →
        ((leavesAt (db_set c f k v true).1 p).map (fun l => l.key)).Nodup) := by
  obtain ⟨h0, hplt, hclen, htake, hres⟩ := ensureFrom_spec (segsOf f) c 0 hf hc
  have hfind : find_node_linear (ensure_node_path c f).1 f =
      some (ensure_node_path c f).2 := hres
  have hkk : k.take 127 = k := List.take_of_length_le hk
  refine ⟨(ensure_node_path c f).2, ?_⟩
  rcases hsv : setLeafVal (leavesAt (ensure_node_path c f).1 (ensure_node_path c f).2)
      k (some v) with _ | ls
  · -- no existing key: `create_leaf` appends at the tail
    have hstate : db_set c f k v true =
        (setLeaves (ensure_node_path c f).1 (ensure_node_path c f).2
          (leavesAt (ensure_node_path c f).1 (ensure_node_path c f).2 ++
            [⟨k.take 127, some v⟩]), true) := by
      rw [db_set_eq, hfind]
      simp [hsv]
    rw [hstate]
    have hlv : leavesAt
        (setLeaves (ensure_node_path c f).1 (ensure_node_path c f).2
          (leavesAt (ensure_node_path c f).1 (ensure_node_path c f).2 ++
            [⟨k.take 127, some v⟩]))
        (ensure_node_path c f).2 =
        leavesAt (ensure_node_path c f).1 (ensure_node_path c f).2 ++
          [⟨k.take 127, some v⟩] :=
      leavesAt_setLeaves_same _ _ _ hplt
    have hfnone := setLeafVal_none_find _ _ _ hsv
    refine ⟨?_, ?_, ?_, ?_⟩
    · rw [find_node_linear_setLeaves]
      exact hfind
    · rw [setLeaves_length]
      exact hplt
    · refine ⟨⟨k, some v⟩, rfl, ?_⟩
      rw [hlv, find?_append_none hfnone]
      simp [List.find?, hkk]
    · intro hu
      have huE : KeysUnique (ensure_node_path c f).1 :=
        KeysUnique_ensureFrom (segsOf f) c 0 hu
      have hnd := leavesAt_nodup huE (ensure_node_path c f).2
      have hnotin := not_mem_keys_of_find_none hfnone
      rw [hlv]
      simp only [List.map_append, List.map_cons, List.map_nil, hkk]
      rw [List.nodup_append]
      refine ⟨hnd, List.nodup_singleton _, ?_⟩
      intro a ha hb
      simp at hb
      subst hb
      exact hnotin ha
  · -- existing key: update in place
    have hstate : db_set c f k v true =
        (setLeaves (ensure_node_path c f).1 (ensure_node_path c f).2 ls, true) := by
      rw [db_set_eq, hfind]
      simp [hsv]
    rw [hstate]
    have hlv : leavesAt
        (setLeaves (ensure_node_path c f).1 (ensure_node_path c f).2 ls)
        (ensure_node_path c f).2 = ls :=
      leavesAt_setLeaves_same _ _ _ hplt
    refine ⟨?_, ?_, ?_, ?_⟩
    · rw [find_node_linear_setLeaves]
      exact hfind
    · rw [setLeaves_length]
      exact hplt
    · obtain ⟨l0, hl0, hfd⟩ := setLeafVal_some_find _ _ _ _ hsv
      exact ⟨l0, hl0, by rw [hlv]; exact hfd⟩
    · intro hu
      have huE : KeysUnique (ensure_node_path c f).1 :=
        KeysUnique_ensureFrom (segsOf f) c 0 hu
      have hnd := leavesAt_nodup huE (ensure_node_path c f).2
      rw [hlv, setLeafVal_map_key _ _ _ _ hsv]
      exact hnd

/-- Round trip at the database layer: a `db_set` whose allocations succeed
is observed exactly by the following `db_get`. -/
theorem db_set_then_get (c : DbState) (f k v : Chars)
    (hc : 0 < c.length) (hf : ∀ t ∈ segsOf f, t.length ≤ 255) (hk : k.length ≤ 127) :
    db_get (db_set c f k v true).1 f k = some v := by
  obtain ⟨p, hfd, _, ⟨l0, _, hfind⟩, _⟩ := db_set_post c f k v hc hf hk
  simp [db_get, find_leaf_linear, hfd, hfind]

/-- A `db_set` followed by `db_del` of the same pair deletes it: under the
key-uniqueness invariant the following `db_get` misses. -/
theorem db_set_then_del (c : DbState) (f k v : Chars)
    (hc : 0 < c.length) (hf : ∀ t ∈ segsOf f, t.length ≤ 255) (hk : k.length ≤ 127)
    (hu : KeysUnique c) :
    (db_del (db_set c f k v true).1 f k).2 = true ∧
    db_get (db_del (db_set c f k v true).1 f k).1 f k = none := by
  obtain ⟨p, hfd, hlt, ⟨l0, hl0, hfind⟩, hnd⟩ := db_set_post c f k v hc hf hk
  have hnodup := hnd hu
  have hsome := delLeaf_isSome_of_find _ _ _ hfind
  rcases hdl : delLeaf (leavesAt (db_set c f k v true).1 p) k with _ | ls₂
  · rw [hdl] at hsome
    simp at hsome
  · have hstate : db_del (db_set c f k v true).1 f k =
        (setLeaves (db_set c f k v true).1 p ls₂, true) := by
      simp [db_del, hfd, hdl]
    constructor
    · rw [hstate]
    · rw [hstate]
      have hresolve : find_node_linear
          (setLeaves (db_set c f k v true).1 p ls₂) f = some p := by
        rw [find_node_linear_setLeaves]
        exact hfd
      have hlv : leavesAt (setLeaves (db_set c f k v true).1 p ls₂) p = ls₂ :=
        leavesAt_setLeaves_same _ _ _ hlt
      have hnone := delLeaf_find_none_of_nodup _ _ _ hnodup hdl
      simp [db_get, find_leaf_linear, hresolve, hlv, hnone]

/-- `ensure_node_path` never removes nodes. -/
theorem ensureFrom_length_le :
    ∀ (segs : List Chars) (c : DbState) (p : Nat),
      c.length ≤ (ensureFrom c p segs).1.length := by
  intro segs
  induction segs with
  | nil => intro c p; simp [ensureFrom]
  | cons t rest ih =>
    intro c p
    rcases hfind : findFrom t (c.drop (p + 1)) with _ | j
    · simp only [ensureFrom, hfind]
      have h1 := ih (insertAt c (p + 1) ⟨t.take 255, []⟩) (p + 1)
      have h2 := insertAt_length c (p + 1) ⟨t.take 255, []⟩
      omega
    · simp only [ensureFrom, hfind]
      exact ih c (p + 1 + j)

/-- When the read-only walk fails, `ensure_node_path` creates at least one
node. -/
theorem ensureFrom_lt_of_resolve_none :
    ∀ (segs : List Chars) (c : DbState) (p : Nat),
      resolveFrom c p segs = none → c.length < (ensureFrom c p segs).1.length := by
  intro segs
  induction segs with
  | nil => intro c p h; simp [resolveFrom] at h
  | cons t rest ih =>
    intro c p h
    rcases hfind : findFrom t (c.drop (p + 1)) with _ | j
    · simp only [ensureFrom, hfind]
      have h1 := ensureFrom_length_le rest (insertAt c (p + 1) ⟨t.take 255, []⟩) (p + 1)
      have h2 := insertAt_length c (p + 1) ⟨t.take 255, []⟩
      omega
    · simp only [resolveFrom, hfind] at h
      simp only [ensureFrom, hfind]
      exact ih c (p + 1 + j) h

/-- The path sequence of the old chain survives `ensure_node_path` (nodes
are only inserted, never removed or renamed). -/
theorem ensureFrom_map_path_sublist :
    ∀ (segs : List Chars) (c : DbState) (p : Nat),
      (c.map NodeRec.path).Sublist ((ensureFrom c p segs).1.map NodeRec.path) := by
  intro segs
  induction segs with
  | nil => intro c p; simp [ensureFrom]
  | cons t rest ih =>
    intro c p
    rcases hfind : findFrom t (c.drop (p + 1)) with _ | j
    · simp only [ensureFrom, hfind]
      exact List.Sublist.trans
        ((insertAt_sublist c (p + 1) ⟨t.take 255, []⟩).map NodeRec.path)
        (ih (insertAt c (p + 1) ⟨t.take 255, []⟩) (p + 1))
    · simp only [ensureFrom, hfind]
      exact ih c (p + 1 + j)

/-- `db_set` never removes or renames a node. -/
theorem db_set_map_path_sublist (c : DbState) (f k v : Chars) (b : Bool) :
    (c.map NodeRec.path).Sublist ((db_set c f k v b).1.map NodeRec.path) := by
  have hbase := ensureFrom_map_path_sublist (segsOf f) c 0
  rw [db_set_eq]
  rcases hfind : find_node_linear (ensure_node_path c f).1 f with _ | q
  · simp only [setLeaves_map_path]
    exact hbase
  · rcases hsv : setLeafVal (leavesAt (ensure_node_path c f).1 q) k
        (if b then some v else none) with _ | ls
    · simp only [hsv, setLeaves_map_path]
      exact hbase
    · simp only [hsv, setLeaves_map_path]
      exact hbase

/-- `db_del` touches only one node's leaf chain: paths are untouched. -/
theorem db_del_map_path (c : DbState) (f k : Chars) :
    ((db_del c f k).1).map NodeRec.path = c.map NodeRec.path := by
  unfold db_del
  rcases hfind : find_node_linear c f with _ | q
  · rfl
  · rcases hdl : delLeaf (leavesAt c q) k with _ | ls
    · simp [hdl]
    · simp [hdl, setLeaves_map_path]

/-- A failed `db_del` is a frame: the tree is returned unchanged. -/
theorem db_del_false_frame (c : DbState) (f k : Chars)
    (h : (db_del c f k).2 = false) : (db_del c f k).1 = c := by
  unfold db_del at h ⊢
  rcases hfind : find_node_linear c f with _ | q
  · rfl
  · rcases hdl : delLeaf (leavesAt c q) k with _ | ls
    · simp [hfind, hdl]
    · simp [hfind, hdl] at h

/-- `db_set` never shrinks the chain. -/
theorem db_set_length_ge (c : DbState) (f k v : Chars) (b : Bool) :
    c.length ≤ (db_set c f k v b).1.length := by
  have hbase := ensureFrom_length_le (segsOf f) c 0
  rw [db_set_eq]
  rcases hfind : find_node_linear (ensure_node_path c f).1 f with _ | q
  · simp only [setLeaves_length]
    exact hbase
  · rcases hsv : setLeafVal (leavesAt (ensure_node_path c f).1 q) k
        (if b then some v else none) with _ | ls
    · simp only [hsv, setLeaves_length]
      exact hbase
    · simp only [hsv, setLeaves_length]
      exact hbase

/-- `db_set` preserves key uniqueness in every node, for fields within the
protocol bounds (the parser's `file[256]`/`key[128]` truncation guarantees
both).  The file bound matters: with an oversize path segment the
`snprintf`-truncated node path no longer matches the segment, the re-
resolution in `find_leaf_linear` misses, and `db_set` would append without
any key check. -/
theorem KeysUnique_db_set (c : DbState) (f k v : Chars) (b : Bool)
    (hu : KeysUnique c) (hc : 0 < c.length)
    (hf : ∀ t ∈ segsOf f, t.length ≤ 255) (hk : k.length ≤ 127) :
    KeysUnique (db_set c f k v b).1 := by
  obtain ⟨h0, hplt, hclen, htake, hres⟩ := ensureFrom_spec (segsOf f) c 0 hf hc
  have hfind : find_node_linear (ensure_node_path c f).1 f =
      some (ensure_node_path c f).2 := hres
  have huE : KeysUnique (ensure_node_path c f).1 :=
    KeysUnique_ensureFrom (segsOf f) c 0 hu
  have hkk : k.take 127 = k := List.take_of_length_le hk
  rw [db_set_eq, hfind]
  rcases hsv : setLeafVal (leavesAt (ensure_node_path c f).1 (ensure_node_path c f).2)
      k (if b then some v else none) with _ | ls
  · simp only [hsv]
    apply KeysUnique_setLeaves huE
    have hnd := leavesAt_nodup huE (ensure_node_path c f).2
    have hnotin := not_mem_keys_of_find_none (setLeafVal_none_find _ _ _ hsv)
    simp only [List.map_append, List.map_cons, List.map_nil, hkk]
    rw [List.nodup_append]
    refine ⟨hnd, List.nodup_singleton _, ?_⟩
    intro a ha hb
    simp at hb
    subst hb
    exact hnotin ha
  · simp only [hsv]
    apply KeysUnique_setLeaves huE
    rw [setLeafVal_map_key _ _ _ _ hsv]
    exact leavesAt_nodup huE (ensure_node_path c f).2

/-- `db_del` preserves key uniqueness: the splice only removes a leaf. -/
theorem KeysUnique_db_del (c : DbState) (f k : Chars) (hu : KeysUnique c) :
    KeysUnique (db_del c f k).1 := by
  unfold db_del
  rcases hfind : find_node_linear c f with _ | q
  · exact hu
  · rcases hdl : delLeaf (leavesAt c q) k with _ | ls
    · simpa [hdl] using hu
    · simp only [hdl]
      apply KeysUnique_setLeaves hu
      have hsub := (delLeaf_sublist _ _ _ hdl).map (fun l => l.key)
      exact (leavesAt_nodup hu q).sublist hsub

/-- Total number of leaves in the tree. -/
def leafCount (c : DbState) : Nat := (c.map (fun n => n.leaves.length)).sum

theorem leavesAt_cons_zero (n : NodeRec) (rest : DbState) :
    leavesAt (n :: rest) 0 = n.leaves := by
  simp [leavesAt]

theorem leavesAt_cons_succ (n : NodeRec) (rest : DbState) (q : Nat) :
    leavesAt (n :: rest) (q + 1) = leavesAt rest q := by
  simp [leavesAt]

/-- Rewriting one node's leaf chain with an equally long chain keeps the
total leaf count. -/
theorem setLeaves_leafCount :
    ∀ (c : DbState) (q : Nat) (ls : List LeafRec), q < c.length →
      ls.length = (leavesAt c q).length →
      leafCount (setLeaves c q ls) = leafCount c := by
  intro c
  induction c with
  | nil => intro q ls hq _; simp at hq
  | cons n rest ih =>
    intro q ls hq hlen
    cases q with
    | zero =>
      rw [leavesAt_cons_zero] at hlen
      simp [setLeaves, leafCount, hlen]
    | succ q =>
      simp at hq
      rw [leavesAt_cons_succ] at hlen
      simp [setLeaves, leafCount]
      have := ih q ls (by omega) hlen
      simpa [leafCount] using this

theorem setLeafVal_length (ls : List LeafRec) (k : Chars) (v : Option Chars)
    (ls₂ : List LeafRec) (h : setLeafVal ls k v = some ls₂) : ls₂.length = ls.length := by
  have h2 := congrArg List.length (setLeafVal_map_key ls k v ls₂ h)
  simpa using h2


/-- First-match positioning of the sibling scan: a node present at
position `m` guarantees the scan returns some position `j ≤ m` bearing
the same path (the shadowing first occurrence). -/
theorem findFrom_first :
    ∀ (l : DbState) (m : Nat) (n : NodeRec), l.get? m = some n →
      ∃ j, j ≤ m ∧ ∃ n2, findFrom n.path l = some j ∧
        l.get? j = some n2 ∧ n2.path = n.path := by
  intro l
  induction l with
  | nil => intro m n h; simp at h
  | cons x rest ih =>
    intro m n h
    by_cases hp : x.path = n.path
    · exact ⟨0, Nat.zero_le m, x, by simp [findFrom, hp], by simp, hp⟩
    · cases m with
      | zero =>
        rw [List.get?_cons_zero, Option.some_inj] at h
        exact absurd (congrArg NodeRec.path h) hp
      | succ m =>
        rw [List.get?_cons_succ] at h
        obtain ⟨j, hj, n2, hf, hg, hp2⟩ := ih m n h
        refine ⟨j + 1, by omega, n2, by simp [findFrom, hp, hf], ?_, hp2⟩
        rw [List.get?_cons_succ]
        exact hg

theorem sentinel_length : sentinel.length = 3 := by decide

theorem endsWithSentinel_append (X : Chars) : endsWithSentinel (X ++ sentinel) := by
  constructor
  · simp [sentinel_length]
  · have h : (X ++ sentinel).length - 3 = X.length := by simp [sentinel_length]
    rw [h]
    exact List.drop_left X sentinel

theorem endsWithSentinel_take {X : Chars} {n : Nat} (h : X.length + 3 ≤ n) :
    endsWithSentinel ((X ++ sentinel).take n) := by
  rw [List.take_of_length_le (by simp [sentinel_length]; omega)]
  exact endsWithSentinel_append X

theorem parseFileKey_bounds {r1 fl ky r3 : Chars}
    (h : parseFileKey r1 = some (fl, ky, r3)) :
    fl.length ≤ 255 ∧ ky.length ≤ 127 := by
  unfold parseFileKey at h
  split at h
  · simp at h
  · split at h
    · simp at h
    · simp at h
      obtain ⟨rfl, rfl, rfl⟩ := h
      exact ⟨List.length_take_le _ _, List.length_take_le _ _⟩

theorem parse_command_bounds {line : Chars} {pc : ParsedCommand}
    (h : parse_command line = some pc) :
    pc.file.length ≤ 255 ∧ pc.key.length ≤ 127 ∧ pc.value.length ≤ 1023 := by
  unfold parse_command at h
  split at h
  · simp at h
  · split at h
    · split at h
      · simp at h
      · rename_i heqf
        obtain ⟨hb1, hb2⟩ := parseFileKey_bounds heqf
        split at h
        · simp at h
        · rw [Option.some_inj] at h
          subst h
          exact ⟨hb1, hb2, by simp⟩
    · split at h
      · split at h
        · simp at h
        · rename_i heqf
          obtain ⟨hb1, hb2⟩ := parseFileKey_bounds heqf
          split at h
          · simp at h
          · rw [Option.some_inj] at h
            subst h
            exact ⟨hb1, hb2, List.length_take_le _ _⟩
      · split at h
        · split at h
          · simp at h
          · rename_i heqf
            obtain ⟨hb1, hb2⟩ := parseFileKey_bounds heqf
            split at h
            · simp at h
            · rw [Option.some_inj] at h
              subst h
              exact ⟨hb1, hb2, by simp⟩
        · simp at h

/-- All stored values are within the protocol bound (an invariant of
parser-driven operation: the parser truncates into `value[1024]`). -/
def ValuesBounded (c : DbState) : Prop :=
  ∀ n ∈ c, ∀ l ∈ n.leaves, ∀ w, l.value = some w → w.length ≤ 1023

/-- Anatomy of a `db_get` hit. -/
theorem db_get_decompose {c : DbState} {f k w : Chars} (h : db_get c f k = some w) :
    ∃ q l0, find_node_linear c f = some q ∧
      (leavesAt c q).find? (fun l => l.key = k) = some l0 ∧ l0.value = some w := by
  unfold db_get find_leaf_linear at h
  split at h
  · simp at h
  · rename_i l0 heq
    split at heq
    · simp at heq
    · rename_i q heqq
      exact ⟨q, l0, heqq, heq, h⟩

theorem db_get_bounded {c : DbState} {f k w : Chars}
    (hv : ValuesBounded c) (h : db_get c f k = some w) : w.length ≤ 1023 := by
  obtain ⟨q, l0, hq, hl, hw⟩ := db_get_decompose h
  have hmem : l0 ∈ leavesAt c q := List.mem_of_find?_eq_some hl
  unfold leavesAt at hmem
  rcases hn : c.get? q with _ | n <;> rw [hn] at hmem
  · simp at hmem
  · exact hv n (List.get?_mem hn) l0 hmem w hw

/-- Anatomy of a `find_leaf_linear` hit. -/
theorem find_leaf_decompose {c : DbState} {f k : Chars} {l0 : LeafRec}
    (h : find_leaf_linear c f k = some l0) :
    ∃ q, find_node_linear c f = some q ∧
      (leavesAt c q).find? (fun l => l.key = k) = some l0 := by
  unfold find_leaf_linear at h
  split at h
  · simp at h
  · rename_i q heqq
    exact ⟨q, heqq, h⟩

/-! ## Claim theorems -/

/-- Claim C1: round-trip — for every file path `f`, key `k`, and non-empty
value `v` within the length bounds (file ≤ 255, key ≤ 127, value ≤ 1023
bytes), executing `SET f k v` and then `GET f k` returns exactly `v`,
over any tree state with the root present. -/
theorem c1_round_trip (c : DbState) (f k v : Chars)
    (hc : 0 < c.length) (hf : f.length ≤ 255) (hk : k.length ≤ 127)
    (_hv0 : v ≠ []) (_hv : v.length ≤ 1023) :
    db_get (db_set c f k v true).1 f k = some v :=
  db_set_then_get c f k v hc (fun _ ht => le_trans (segsOf_length_le ht) hf) hk

/-- Witness for C1 at the scenario of the specification: `SET db color
blue` then `GET db color`. -/
theorem c1_round_trip_witness :
    db_get (db_set initState "db".toList "color".toList "blue".toList true).1
      "db".toList "color".toList = some ("blue".toList) :=
  c1_round_trip initState "db".toList "color".toList "blue".toList
    (by decide) (by decide) (by decide) (by decide) (by decide)

/-- Claim C4: deletion — `SET f k v; DEL f k; GET f k` ends in NotFound
for the final GET (under the data-model invariant that keys within one
node are unique, which the operations preserve); and `DEL` resolves the
path without creating anything: a missing path is a NotFound no-op
returning the tree unchanged. -/
theorem c4_deletion (c : DbState) (f k v : Chars)
    (hc : 0 < c.length) (hf : f.length ≤ 255) (hk : k.length ≤ 127)
    (hu : KeysUnique c) :
    (db_del (db_set c f k v true).1 f k).2 = true ∧
    db_get (db_del (db_set c f k v true).1 f k).1 f k = none ∧
    (∀ c2 : DbState, ∀ f2 k2 : Chars, find_node_linear c2 f2 = none →
      db_del c2 f2 k2 = (c2, false)) := by
  obtain ⟨h1, h2⟩ := db_set_then_del c f k v hc
    (fun _ ht => le_trans (segsOf_length_le ht) hf) hk hu
  refine ⟨h1, h2, ?_⟩
  intro c2 f2 k2 hmiss
  simp [db_del, hmiss]

/-- Witness for C4: `SET db color blue; DEL db color; GET db color` on the
fresh tree. -/
theorem c4_deletion_witness :
    (db_del (db_set initState "db".toList "color".toList "blue".toList true).1
      "db".toList "color".toList).2 = true ∧
    db_get (db_del (db_set initState "db".toList "color".toList "blue".toList true).1
      "db".toList "color".toList).1 "db".toList "color".toList = none ∧
    (∀ c2 : DbState, ∀ f2 k2 : Chars, find_node_linear c2 f2 = none →
      db_del c2 f2 k2 = (c2, false)) :=
  c4_deletion initState "db".toList "color".toList "blue".toList
    (by decide) (by decide) (by decide)
    (by intro n hn; simp [initState] at hn; subst hn; simp)

/-- Claim C7: read-only lookups — path resolution (`find_node_linear`,
used by GET and DEL) is a pure function returning only a position, so a
miss cannot mutate; a missing path makes `GET` report NotFound and makes
`DEL` report NotFound with the tree returned unchanged; and any failing
`DEL` (missing path or missing key) returns the tree exactly as it was. -/
theorem c7_read_only (c : DbState) (f k : Chars) :
    (find_node_linear c f = none → db_get c f k = none ∧ db_del c f k = (c, false)) ∧
    ((db_del c f k).2 = false → (db_del c f k).1 = c) := by
  constructor
  · intro hmiss
    constructor
    · simp [db_get, find_leaf_linear, hmiss]
    · simp [db_del, hmiss]
  · exact db_del_false_frame c f k

/-- Witness for C7: a GET and DEL addressed to a never-created path on the
fresh tree, plus the failed-DEL frame at a concrete miss. -/
theorem c7_read_only_witness :
    (db_get initState "missing".toList "k".toList = none ∧
      db_del initState "missing".toList "k".toList = (initState, false)) ∧
    (db_del initState "db".toList "color".toList).1 = initState :=
  ⟨(c7_read_only initState "missing".toList "k".toList).1 (by decide),
    (c7_read_only initState "db".toList "color".toList).2 (by decide)⟩

/-- Claim C10: non-atomic update — when a `SET` updates an existing key
(here witnessed by a successful `GET` of that key) and the replacement
value's `malloc` fails, the `SET` reports failure but the old value was
already freed: the leaf is left with a NULL value and a subsequent `GET`
for the key reports NotFound, so the prior value is not preserved on a
ResourceError. -/
theorem c10_update_oom (c : DbState) (f k v w : Chars)
    (hc : 0 < c.length) (hget : db_get c f k = some w) :
    (db_set c f k v false).2 = false ∧
    db_get (db_set c f k v false).1 f k = none := by
  obtain ⟨q, l0, hq, hl, hw⟩ := db_get_decompose hget
  have hensure : ensure_node_path c f = (c, q) :=
    ensureFrom_of_resolve (segsOf f) c 0 q hq
  have hqlt : q < c.length := (resolveFrom_le_lt (segsOf f) c 0 q hc hq).2
  have hsome := setLeafVal_isSome_of_find (leavesAt c q) k none l0 hl
  rcases hsv : setLeafVal (leavesAt c q) k none with _ | ls
  · rw [hsv] at hsome
    simp at hsome
  · have hstate : db_set c f k v false = (setLeaves c q ls, false) := by
      rw [db_set_eq, hensure]
      simp [hq, hsv]
    rw [hstate]
    refine ⟨rfl, ?_⟩
    obtain ⟨l1, hl1k, hfind⟩ := setLeafVal_some_find (leavesAt c q) k none ls hsv
    have hres2 : find_node_linear (setLeaves c q ls) f = some q := by
      rw [find_node_linear_setLeaves]
      exact hq
    have hlv : leavesAt (setLeaves c q ls) q = ls := leavesAt_setLeaves_same c q ls hqlt
    simp [db_get, find_leaf_linear, hres2, hlv, hfind]

/-- Witness for C10: store `color = blue`, then update it with the value
allocation failing. -/
theorem c10_update_oom_witness :
    (db_set (db_set initState "db".toList "color".toList "blue".toList true).1
      "db".toList "color".toList "red".toList false).2 = false ∧
    db_get (db_set (db_set initState "db".toList "color".toList "blue".toList true).1
      "db".toList "color".toList "red".toList false).1
      "db".toList "color".toList = none :=
  c10_update_oom (db_set initState "db".toList "color".toList "blue".toList true).1
    "db".toList "color".toList "red".toList "blue".toList
    (by decide) (by decide)

/-- Counterexample to claim C2 as stated: after `SET b x 0`, the command
`SET c/b y 1` references segment `b` at a position in the hierarchy (child
of `c`) never created before — the claim demands a new Node for it, which
would leave 4 nodes in total.  The code instead creates only the node `c`
(3 nodes in total): its segment scan runs over the remainder of the single
west-linked chain and reuses the pre-existing top-level `b` node, where the
leaf `y` then lands — visible under the bare path `b`. -/
theorem c2_counterexample :
    ((db_set (db_set initState "b".toList "x".toList "0".toList true).1
        "c/b".toList "y".toList "1".toList true).1).length = 3 ∧
    db_get (db_set (db_set initState "b".toList "x".toList "0".toList true).1
        "c/b".toList "y".toList "1".toList true).1 "b".toList "y".toList =
      some ("1".toList) ∧
    find_node_linear (db_set (db_set initState "b".toList "x".toList "0".toList true).1
        "c/b".toList "y".toList "1".toList true).1 "c/b".toList =
      find_node_linear (db_set (db_set initState "b".toList "x".toList "0".toList true).1
        "c/b".toList "y".toList "1".toList true).1 "b".toList := by
  decide

/-- Claim C2 (amended): on a `SET`, a new Node is created for a path
segment exactly when the scan from the current node over the remainder of
the single west-linked chain finds no node bearing that segment name — a
same-named node under any other parent is reused instead of creating one
at this position.  Every node lives until shutdown: no operation removes
or renames nodes (`db_set` only extends the path sequence, `db_del` keeps
it identical).  The leaf is stored under the node reached by the code's
resolution of all segments in order: the path re-resolves to exactly the
node `ensure_node_path` returned; a fully-resolving path creates nothing,
and a non-resolving path creates at least one node. -/
theorem c2_auto_vivification (c : DbState) (f k v : Chars) (b : Bool)
    (hc : 0 < c.length) (hf : f.length ≤ 255) :
    find_node_linear (ensure_node_path c f).1 f = some (ensure_node_path c f).2 ∧
    (∀ q, find_node_linear c f = some q → ensure_node_path c f = (c, q)) ∧
    (find_node_linear c f = none → c.length < (ensure_node_path c f).1.length) ∧
    (c.map NodeRec.path).Sublist ((db_set c f k v b).1.map NodeRec.path) ∧
    (db_del c f k).1.map NodeRec.path = c.map NodeRec.path := by
  have hsegs : ∀ t ∈ segsOf f, t.length ≤ 255 :=
    fun _ ht => le_trans (segsOf_length_le ht) hf
  obtain ⟨_, _, _, _, hres⟩ := ensureFrom_spec (segsOf f) c 0 hsegs hc
  exact ⟨hres, fun q hq => ensureFrom_of_resolve (segsOf f) c 0 q hq,
    fun hnone => ensureFrom_lt_of_resolve_none (segsOf f) c 0 hnone,
    db_set_map_path_sublist c f k v b, db_del_map_path c f k⟩

/-- Witness for the amended C2 on the fresh tree and path `a/b`. -/
theorem c2_auto_vivification_witness :
    find_node_linear (ensure_node_path initState "a/b".toList).1 "a/b".toList =
      some (ensure_node_path initState "a/b".toList).2 ∧
    (∀ q, find_node_linear initState "a/b".toList = some q →
      ensure_node_path initState "a/b".toList = (initState, q)) ∧
    (find_node_linear initState "a/b".toList = none →
      initState.length < (ensure_node_path initState "a/b".toList).1.length) ∧
    (initState.map NodeRec.path).Sublist
      ((db_set initState "a/b".toList "k".toList "v".toList true).1.map NodeRec.path) ∧
    (db_del initState "a/b".toList "k".toList).1.map NodeRec.path =
      initState.map NodeRec.path :=
  c2_auto_vivification initState "a/b".toList "k".toList "v".toList true
    (by decide) (by decide)

/-- Counterexample to claim C9 as stated: create node `b`, then node `a`,
then `SET b/b k1 v1`.  The walk resolves the first `b`, finds no `b` after
it, and splices a second node named `b` behind it.  The leaf `k1` is
retrievable under the nested path `b/b` but a GET addressed to the bare
path `b` resolves to the shadowing first `b` node and misses — so not
every node is reachable by the one-segment path equal to its own name, and
a leaf under a nested path need not be visible under its bare last
segment. -/
theorem c9_counterexample :
    db_get (db_set (db_set (db_set initState "b".toList "x".toList "0".toList true).1
        "a".toList "x".toList "0".toList true).1
        "b/b".toList "k1".toList "v1".toList true).1 "b/b".toList "k1".toList =
      some ("v1".toList) ∧
    db_get (db_set (db_set (db_set initState "b".toList "x".toList "0".toList true).1
        "a".toList "x".toList "0".toList true).1
        "b/b".toList "k1".toList "v1".toList true).1 "b".toList "k1".toList = none := by
  decide

/-- Claim C9 (amended): every node lives in the single west-linked chain
from the root, and resolving a node's own segment name as a one-segment
path reaches the first chain node bearing that name — the node itself
whenever no earlier chain node shares its name, a shadowing earlier node
otherwise.  Consequently, on a fresh tree a leaf stored under the nested
path `a/b` is also returned by a GET addressed to the bare path `b`, and
the two paths `a/b` and `b` resolve to the same node — namespaces are not
isolated by their parent. -/
theorem c9_flat_chain (c : DbState) (i : Nat) (n : NodeRec)
    (hi : 1 ≤ i) (hn : c.get? i = some n) :
    (∃ j, 1 ≤ j ∧ j ≤ i ∧ ∃ n2, resolveFrom c 0 [n.path] = some j ∧
      c.get? j = some n2 ∧ n2.path = n.path) ∧
    db_get (db_set initState "a/b".toList "k".toList "v".toList true).1
      "b".toList "k".toList = some ("v".toList) ∧
    find_node_linear (db_set initState "a/b".toList "k".toList "v".toList true).1
        "a/b".toList =
      find_node_linear (db_set initState "a/b".toList "k".toList "v".toList true).1
        "b".toList := by
  refine ⟨?_, by decide, by decide⟩
  have hdrop : (c.drop 1).get? (i - 1) = some n := by
    rw [List.get?_drop]
    have h1 : 1 + (i - 1) = i := by omega
    rw [h1]
    exact hn
  obtain ⟨j, hj, n2, hf, hg, hp⟩ := findFrom_first (c.drop 1) (i - 1) n hdrop
  refine ⟨1 + j, by omega, by omega, n2, ?_, ?_, hp⟩
  · have hf2 : findFrom n.path c.tail = some j := by
      rw [← List.drop_one]
      exact hf
    simp [resolveFrom, hf2]
  · rw [← List.get?_drop]
    exact hg

/-- Witness for the amended C9: the duplicate-`b` chain of the
counterexample, taking the second `b` node (position 3) itself. -/
theorem c9_flat_chain_witness :
    (∃ j, 1 ≤ j ∧ j ≤ 3 ∧ ∃ n2,
      resolveFrom (db_set (db_set (db_set initState "b".toList "x".toList "0".toList true).1
        "a".toList "x".toList "0".toList true).1
        "b/b".toList "k1".toList "v1".toList true).1 0
        [(⟨"b".toList, [⟨"k1".toList, some ("v1".toList)⟩]⟩ : NodeRec).path] = some j ∧
      (db_set (db_set (db_set initState "b".toList "x".toList "0".toList true).1
        "a".toList "x".toList "0".toList true).1
        "b/b".toList "k1".toList "v1".toList true).1.get? j = some n2 ∧
      n2.path = (⟨"b".toList, [⟨"k1".toList, some ("v1".toList)⟩]⟩ : NodeRec).path) ∧
    db_get (db_set initState "a/b".toList "k".toList "v".toList true).1
      "b".toList "k".toList = some ("v".toList) ∧
    find_node_linear (db_set initState "a/b".toList "k".toList "v".toList true).1
        "a/b".toList =
      find_node_linear (db_set initState "a/b".toList "k".toList "v".toList true).1
        "b".toList :=
  c9_flat_chain (db_set (db_set (db_set initState "b".toList "x".toList "0".toList true).1
      "a".toList "x".toList "0".toList true).1
      "b/b".toList "k1".toList "v1".toList true).1 3
    ⟨"b".toList, [⟨"k1".toList, some ("v1".toList)⟩]⟩ (by decide) (by decide)

/-- Claim C3: key uniqueness and last-write-wins — within one node the
leaf keys are pairwise distinct and both `db_set` (fields within the
protocol bounds) and `db_del` preserve this; a `SET` whose key is already
present in the target node's chain (a `find_leaf_linear` hit, exactly the
check the source performs) updates that leaf in place and never appends:
the chain length of every node — hence the total leaf count — is
unchanged; and `SET f k v1; SET f k v2; GET f k` returns `v2`. -/
theorem c3_unique_lww (c : DbState) (f k v v₁ v₂ : Chars)
    (hc : 0 < c.length) (hf : f.length ≤ 255) (hk : k.length ≤ 127)
    (hu : KeysUnique c) :
    KeysUnique (db_set c f k v true).1 ∧
    KeysUnique (db_del c f k).1 ∧
    ((find_leaf_linear c f k).isSome →
      (db_set c f k v true).1.length = c.length ∧
      leafCount (db_set c f k v true).1 = leafCount c) ∧
    db_get (db_set (db_set c f k v₁ true).1 f k v₂ true).1 f k = some v₂ := by
  have hsegs : ∀ t ∈ segsOf f, t.length ≤ 255 :=
    fun _ ht => le_trans (segsOf_length_le ht) hf
  refine ⟨KeysUnique_db_set c f k v true hu hc hsegs hk,
    KeysUnique_db_del c f k hu, ?_, ?_⟩
  · intro hpresent
    rcases hfl : find_leaf_linear c f k with _ | l0
    · rw [hfl] at hpresent
      simp at hpresent
    · obtain ⟨q, hq, hfind⟩ := find_leaf_decompose hfl
      have hensure : ensure_node_path c f = (c, q) :=
        ensureFrom_of_resolve (segsOf f) c 0 q hq
      have hqlt : q < c.length := (resolveFrom_le_lt (segsOf f) c 0 q hc hq).2
      have hsome := setLeafVal_isSome_of_find (leavesAt c q) k (some v) l0 hfind
      rcases hsv : setLeafVal (leavesAt c q) k (some v) with _ | ls
      · rw [hsv] at hsome
        simp at hsome
      · have hstate : db_set c f k v true = (setLeaves c q ls, true) := by
          rw [db_set_eq, hensure]
          simp [hq, hsv]
        rw [hstate]
        refine ⟨setLeaves_length c q ls, ?_⟩
        exact setLeaves_leafCount c q ls hqlt (setLeafVal_length _ _ _ _ hsv)
  · have hc2 : 0 < (db_set c f k v₁ true).1.length :=
      lt_of_lt_of_le hc (db_set_length_ge c f k v₁ true)
    exact db_set_then_get (db_set c f k v₁ true).1 f k v₂ hc2 hsegs hk

/-- Witness for C3 on the fresh tree: `SET db color blue; SET db color
red; GET db color` plus the preserved invariants. -/
theorem c3_unique_lww_witness :
    KeysUnique (db_set initState "db".toList "color".toList "blue".toList true).1 ∧
    KeysUnique (db_del initState "db".toList "color".toList).1 ∧
    ((find_leaf_linear initState "db".toList "color".toList).isSome →
      (db_set initState "db".toList "color".toList "blue".toList true).1.length =
        initState.length ∧
      leafCount (db_set initState "db".toList "color".toList "blue".toList true).1 =
        leafCount initState) ∧
    db_get (db_set (db_set initState "db".toList "color".toList "blue".toList true).1
      "db".toList "color".toList "red".toList true).1
      "db".toList "color".toList = some ("red".toList) :=
  c3_unique_lww initState "db".toList "color".toList "blue".toList
    "blue".toList "red".toList (by decide) (by decide) (by decide)
    (by intro n hn; simp [initState] at hn; subst hn; simp)

set_option maxRecDepth 10000 in
/-- Claim C5's failing input evaluated on the code: a SET line whose FILE
token is 256 bytes is not rejected with a ProtocolError — `parse_command`
accepts the line and stores the token silently truncated to 255 bytes
(`strncpy` into `file[256]`), contradicting the specification's
oversize-rejection requirement. -/
theorem c5_oversize_truncated :
    parse_command ("SET ".toList ++ List.replicate 256 'a' ++ " k v".toList) =
      some ⟨"SET".toList, List.replicate 255 'a', ['k'], ['v']⟩ ∧
    List.replicate 255 'a' ≠ List.replicate 256 'a' := by
  decide

/-- Claim C6: malformed-command atomicity — a line that fails to parse
leaves the tree completely unchanged (no node or leaf is created,
modified, or removed), and when it is none of the exact built-in lines the
dispatcher replies with the ProtocolError echo; the claim's example lines
`SET onlyfile` and `BOGUS a b` are indeed parse errors. -/
theorem c6_malformed_atomicity (si : ServerInfo) (c : DbState) (line : Chars)
    (hp : parse_command line = none) :
    (process_client_command si c line).1 = c ∧
    (line ≠ "quit".toList → line ≠ "exit".toList → line ≠ "help".toList →
      line ≠ "info".toList →
      process_client_command si c line = (c, malformedReply line)) ∧
    parse_command ("SET onlyfile".toList) = none ∧
    parse_command ("BOGUS a b".toList) = none := by
  refine ⟨?_, ?_, by decide, by decide⟩
  · unfold process_client_command
    by_cases h1 : line = "quit".toList ∨ line = "exit".toList
    · rw [if_pos h1]
    · rw [if_neg h1]
      by_cases h2 : line = "help".toList
      · rw [if_pos h2]
      · rw [if_neg h2]
        by_cases h3 : line = "info".toList
        · rw [if_pos h3]
        · rw [if_neg h3]
          simp [hp]
  · intro hqt hex hh hi
    unfold process_client_command
    rw [if_neg (not_or.mpr ⟨hqt, hex⟩), if_neg hh, if_neg hi]
    simp [hp]

/-- Witness for C6 on the claim's own example line. -/
theorem c6_malformed_atomicity_witness :
    (process_client_command ⟨[], [], [], [], []⟩ initState "SET onlyfile".toList).1 =
      initState ∧
    ("SET onlyfile".toList ≠ "quit".toList → "SET onlyfile".toList ≠ "exit".toList →
      "SET onlyfile".toList ≠ "help".toList → "SET onlyfile".toList ≠ "info".toList →
      process_client_command ⟨[], [], [], [], []⟩ initState "SET onlyfile".toList =
        (initState, malformedReply ("SET onlyfile".toList))) ∧
    parse_command ("SET onlyfile".toList) = none ∧
    parse_command ("BOGUS a b".toList) = none :=
  c6_malformed_atomicity ⟨[], [], [], [], []⟩ initState "SET onlyfile".toList (by decide)

/-- Counterexample to claim C8 as stated: the goodbye reply produced by
`quit` is exactly `"Goodbye!\n"` and does not end with the trailing
prompt sentinel `"\n> "`. -/
theorem c8_counterexample :
    (process_client_command ⟨[], [], [], [], []⟩ initState "quit".toList).2 =
      "Goodbye!\n".toList ∧
    ¬ endsWithSentinel
      (process_client_command ⟨[], [], [], [], []⟩ initState "quit".toList).2 := by
  decide

set_option maxRecDepth 10000 in
/-- Claim C8 (amended): every reply the dispatcher sends — success, error,
help, info, and the unknown/malformed echoes — ends with the trailing
prompt sentinel `"\n> "`, except the goodbye reply of `quit`/`exit`,
which is exactly `"Goodbye!\n"` with no sentinel; the welcome banner also
carries the sentinel.  For the replies built by `snprintf` into the
4096-byte response buffer this holds provided the formatted text fits —
guaranteed here by an input line of at most 4000 bytes, stored values
within the 1023-byte protocol bound, and `info` fields of their C-type
widths; an overlong malformed-line echo would be truncated by `snprintf`
and lose the sentinel. -/
theorem c8_sentinel (si : ServerInfo) (c : DbState) (line : Chars)
    (hvb : ValuesBounded c)
    (hport : si.portStr.length ≤ 5) (hcount : si.countStr.length ≤ 5)
    (hcap : si.capStr.length ≤ 5) (hip : si.ipStr.length ≤ 15)
    (hcport : si.clientPortStr.length ≤ 5)
    (hlen : line.length ≤ 4000)
    (hqt : line ≠ "quit".toList) (hex : line ≠ "exit".toList) :
    endsWithSentinel (process_client_command si c line).2 ∧
    (∀ si2 : ServerInfo, ∀ c2 : DbState,
      (process_client_command si2 c2 "quit".toList).2 = goodbyeMsg) ∧
    endsWithSentinel welcomeMsg := by
  refine ⟨?_, fun si2 c2 => by
    unfold process_client_command
    rw [if_pos (Or.inl rfl)], by decide⟩
  unfold process_client_command
  rw [if_neg (not_or.mpr ⟨hqt, hex⟩)]
  by_cases h2 : line = "help".toList
  · rw [if_pos h2]
    show endsWithSentinel helpMsg
    decide
  · rw [if_neg h2]
    by_cases h3 : line = "info".toList
    · rw [if_pos h3]
      show endsWithSentinel (infoMsg si)
      unfold infoMsg
      apply endsWithSentinel_take
      have e1 : ("Server Information:\n  Host: 127.0.0.1:".toList).length ≤ 40 := by decide
      have e2 : ("\n  Connected clients: ".toList).length ≤ 25 := by decide
      have e3 : ("/".toList).length ≤ 1 := by decide
      have e4 : ("\n  Your IP: ".toList).length ≤ 15 := by decide
      have e5 : (":".toList).length ≤ 1 := by decide
      simp only [infoBody, List.length_append]
      omega
    · rw [if_neg h3]
      rcases hp : parse_command line with _ | pc
      · simp only [hp]
        show endsWithSentinel (malformedReply line)
        unfold malformedReply
        apply endsWithSentinel_take
        have e1 : ("Error: Malformed command or invalid arguments for ".toList).length ≤ 55 :=
          by decide
        have e2 : (". Type ".toList).length ≤ 10 := by decide
        have e3 : ("help".toList).length ≤ 4 := by decide
        have e4 : (" for syntax.".toList).length ≤ 15 := by decide
        simp only [malformedBody, List.length_append, List.length_cons, List.length_nil]
        omega
      · simp only [hp]
        obtain ⟨hbf, hbk, hbv⟩ := parse_command_bounds hp
        by_cases hg : pc.command = "GET".toList
        · rw [if_pos hg]
          rcases hres : db_get c pc.file pc.key with _ | v
          · simp only [hres]
            show endsWithSentinel (getErrReply pc.key pc.file)
            unfold getErrReply
            apply endsWithSentinel_take
            have e1 : ("ERR: Key ".toList).length ≤ 10 := by decide
            have e2 : (" not found in file ".toList).length ≤ 20 := by decide
            have e3 : (".".toList).length ≤ 1 := by decide
            simp only [getErrBody, List.length_append, List.length_cons, List.length_nil]
            omega
          · simp only [hres]
            show endsWithSentinel (getOkReply v)
            unfold getOkReply
            apply endsWithSentinel_take
            have hv1023 := db_get_bounded hvb hres
            have e1 : ("OK: ".toList).length ≤ 4 := by decide
            simp only [getOkBody, List.length_append]
            omega
        · rw [if_neg hg]
          by_cases hs : pc.command = "SET".toList
          · rw [if_pos hs]
            by_cases hb : (db_set c pc.file pc.key pc.value true).2 = true
            · rw [if_pos hb]
              show endsWithSentinel setOkReply
              decide
            · rw [if_neg hb]
              show endsWithSentinel setErrReply
              decide
          · rw [if_neg hs]
            by_cases hd : pc.command = "DEL".toList
            · rw [if_pos hd]
              by_cases hb : (db_del c pc.file pc.key).2 = true
              · rw [if_pos hb]
                show endsWithSentinel delOkReply
                decide
              · rw [if_neg hb]
                show endsWithSentinel delErrReply
                decide
            · rw [if_neg hd]
              show endsWithSentinel (unknownReply line)
              unfold unknownReply
              apply endsWithSentinel_take
              have e1 : ("Unknown command: ".toList).length ≤ 20 := by decide
              have e2 : (". Type ".toList).length ≤ 10 := by decide
              have e3 : ("help".toList).length ≤ 4 := by decide
              have e4 : (" for available commands.".toList).length ≤ 25 := by decide
              simp only [unknownBody, List.length_append, List.length_cons, List.length_nil]
              omega

set_option maxRecDepth 10000 in
/-- Witness for the amended C8: a `help` line against the fresh tree with
realistic server-info fields. -/
theorem c8_sentinel_witness :
    endsWithSentinel (process_client_command
      ⟨"12049".toList, "1".toList, "10000".toList, "127.0.0.1".toList, "54321".toList⟩
      initState "help".toList).2 ∧
    (∀ si2 : ServerInfo, ∀ c2 : DbState,
      (process_client_command si2 c2 "quit".toList).2 = goodbyeMsg) ∧
    endsWithSentinel welcomeMsg :=
  c8_sentinel
    ⟨"12049".toList, "1".toList, "10000".toList, "127.0.0.1".toList, "54321".toList⟩
    initState "help".toList
    (by intro n hn; simp [initState] at hn; subst hn; simp)
    (by decide) (by decide) (by decide) (by decide) (by decide)
    (by decide) (by decide) (by decide)
